import Mathlib

/-!
Shallow embedding of the analytics core of `src/dashboard.py` (a pandas /
streamlit newsletter-growth dashboard) and proofs of the specification claims
about it.

Modelling conventions:
* Timestamps are `Int` seconds since the epoch; pandas' calendar-day
  truncation (`resample('D')` bucketing) is floor division by 86400.
* A pandas `DataFrame` column that may be absent is modelled at table level
  (an `Option` column or a `has…` flag), matching the `if col in df.columns`
  checks in the source.
* `st.error(...)` followed by `return None` (the schema failure path) is
  modelled as `Option.none`; the "Not enough data" spike outcome is the
  `none` result of `detectSpike`.
* `df.sort_values(key)` sorts ascending by the key column.  The source uses
  pandas' default `kind='quicksort'`, whose order among equal keys is not
  specified; the model uses an insertion sort and no theorem below relies on
  the relative order of equal keys.
* `pd.merge_asof(..., direction='nearest')` matches each left row to the
  right key minimising absolute distance, resolving exact ties to the
  backward (earlier) key; on an ascending key column this is the first
  index attaining the minimal distance, which is how `nearestGrowth` scans.
* `Series.idxmax` skips missing values and returns the first index attaining
  the maximum; `pct_change(periods=3)` is `v i / v (i-3) - 1` with the first
  three entries missing.  Missing values (NaN) are `Option.none`.  A zero
  denominator would give pandas `inf`/NaN rather than `none`; all spike
  claims are stated on `dailyGrowth` outputs, where the denominator is
  proved to be at least 1, so the two models agree on every reachable input.
-/

namespace Dashboard

/-- Seconds in a calendar day. -/
def secPerDay : Int := 86400

/-- Calendar day of a timestamp: pandas daily-bucket truncation (floor). -/
def dayOf (t : Int) : Int := Int.fdiv t secPerDay

/-! ### Table Normalizer (`process_subscribers`, `process_posts`) -/

/-- Raw subscriber table: the `created_at` column is `none` when absent
(the `if 'created_at' in df.columns` check in `process_subscribers`);
cell values are the parsed timestamps. -/
structure RawSubscriberTable where
  created_at? : Option (List Int)
deriving DecidableEq

/-- One raw content row: `post_date` as parsed timestamp, the `is_published`
cell already coerced to a string (`astype(str)` in the source), and a title. -/
structure PostRow where
  post_date : Int
  is_published : String
  title : String
deriving DecidableEq

/-- Raw content table, with presence flags for the `post_date` and
`is_published` columns. -/
structure RawPostTable where
  hasPostDate : Bool
  hasIsPublished : Bool
  rows : List PostRow
deriving DecidableEq

/-- Canonical subscriber order: ascending `created_at`
(`df.sort_values('created_at')`). -/
def sortSubs (l : List Int) : List Int :=
  List.insertionSort (fun a b => a ≤ b) l

/-- `process_subscribers`: schema failure (`None`) when `created_at` is
absent, otherwise the events sorted ascending by `created_at`. -/
def process_subscribers (t : RawSubscriberTable) : Option (List Int) :=
  match t.created_at? with
  | none => none
  | some col => some (sortSubs col)

/-- Ascending `post_date` order used by `df.sort_values('post_date')`. -/
def postLE (a b : PostRow) : Prop := a.post_date ≤ b.post_date

instance : DecidableRel postLE :=
  fun a b => inferInstanceAs (Decidable (a.post_date ≤ b.post_date))

instance : IsTotal PostRow postLE := ⟨fun a b => Int.le_total a.post_date b.post_date⟩

instance : IsTrans PostRow postLE := ⟨fun _ _ _ => Int.le_trans⟩

/-- Canonical content order: ascending `post_date`. -/
def sortPosts (l : List PostRow) : List PostRow :=
  List.insertionSort postLE l

/-- The boolean parse of an `is_published` cell:
`astype(str).str.lower() == 'true'`. -/
def parsePublished (s : String) : Bool := s.toLower == "true"

/-- `process_posts`: schema failure when `post_date` is absent; otherwise,
when the `is_published` column exists, keep only rows whose cell parses to
true, and sort ascending by `post_date`. -/
def process_posts (t : RawPostTable) : Option (List PostRow) :=
  if t.hasPostDate then
    some (sortPosts
      (if t.hasIsPublished then t.rows.filter (fun r => parsePublished r.is_published)
       else t.rows))
  else none

/-! ### Cumulative Growth Builder (`daily_growth = … resample('D').size().cumsum()`) -/

/-- First calendar day of the series: floor of the minimum timestamp
(`resample` bins start at the floored minimum of the index). -/
def firstDay : List Int → Int
  | [] => 0
  | t :: r => (r.map dayOf).foldl min (dayOf t)

/-- Last calendar day of the series: floor of the maximum timestamp. -/
def lastDay : List Int → Int
  | [] => 0
  | t :: r => (r.map dayOf).foldl max (dayOf t)

/-- Number of daily bins produced by `resample('D')`. -/
def numDays (ts : List Int) : Nat :=
  match ts with
  | [] => 0
  | _ :: _ => (lastDay ts - firstDay ts + 1).toNat

/-- The `k` consecutive calendar days starting at `d0`. -/
def daysFrom (d0 : Int) : Nat → List Int
  | 0 => []
  | k + 1 => d0 :: daysFrom (d0 + 1) k

/-- Events falling in the daily bin of day `d` (`resample('D').size()` for
one bin). -/
def newOnDay (ts : List Int) (d : Int) : Nat :=
  (ts.filter (fun t => decide (dayOf t = d))).length

/-- The per-day bin sizes over the full dense range:
`resample('D').size()` as a list of `(day, size)` pairs. -/
def dailySizes (ts : List Int) : List (Int × Nat) :=
  (daysFrom (firstDay ts) (numDays ts)).map (fun d => (d, newOnDay ts d))

/-- Running sum of the second components (`Series.cumsum`). -/
def cumsumSnd (acc : Nat) : List (Int × Nat) → List (Int × Nat)
  | [] => []
  | (d, n) :: r => (d, acc + n) :: cumsumSnd (acc + n) r

/-- The dense daily cumulative series `daily_growth`: for each day of the
range, the day and the cumulative subscriber count. -/
def dailyGrowth (ts : List Int) : List (Int × Nat) :=
  cumsumSnd 0 (dailySizes ts)

/-- Subscriber count through day `d` (specification view of the cumulative
column, proved below to agree with `dailyGrowth`). -/
def cumThrough (ts : List Int) (d : Int) : Nat :=
  (ts.filter (fun t => decide (dayOf t ≤ d))).length

/-- Count of events whose day lies in `[d0, d0 + m)` (proof-side view of the
running sum). -/
def countIn (ts : List Int) (d0 : Int) (m : Nat) : Nat :=
  (ts.filter (fun t => decide (d0 ≤ dayOf t ∧ dayOf t < d0 + m))).length

/-! ### Catalyst Matcher (`relevant_posts` filter and `pd.merge_asof`) -/

/-- The `created_at` value carried by a daily growth point: midnight of its
day. -/
def dateTs (p : Int × Nat) : Int := p.1 * secPerDay

/-- Absolute time distance from timestamp `t` to a growth point's date. -/
def absDist (t : Int) (p : Int × Nat) : Nat := (t - dateTs p).natAbs

/-- The range filter of the catalyst overlay: posts with `post_date` between
`daily_growth['created_at'].min()` and `.max()` inclusive.  On an empty
growth series the pandas NaN comparisons select no rows. -/
def relevantPosts (posts : List PostRow) (growth : List (Int × Nat)) : List PostRow :=
  match growth with
  | [] => []
  | g :: gs =>
    let lo := (gs.map (fun p => p.1)).foldl min g.1
    let hi := (gs.map (fun p => p.1)).foldl max g.1
    posts.filter (fun r =>
      decide (lo * secPerDay ≤ r.post_date) && decide (r.post_date ≤ hi * secPerDay))

/-- Nearest growth point to timestamp `t`: minimal absolute distance, exact
ties resolved to the earlier point (`merge_asof direction='nearest'`, which
prefers the backward key on ties; on the ascending date column this is the
first point attaining the minimum). -/
def nearerStep (t : Int) (p : Int × Nat) (rest : Option (Int × Nat)) : Option (Int × Nat) :=
  match rest with
  | none => some p
  | some q => if absDist t q < absDist t p then some q else some p

def nearestGrowth (growth : List (Int × Nat)) (t : Int) : Option (Int × Nat) :=
  match growth with
  | [] => none
  | p :: r => nearerStep t p (nearestGrowth r t)

/-- The matched overlay: each in-range post paired with the cumulative value
of its nearest daily point (`posts_integrated`). -/
def matchPosts (posts : List PostRow) (growth : List (Int × Nat)) :
    List (PostRow × Nat) :=
  (relevantPosts posts growth).map
    (fun r => (r, ((nearestGrowth growth r.post_date).getD (0, 0)).2))

/-! ### Spike Detector (`pct_change(periods=3)` + `idxmax`) -/

/-- The 3-day percentage-change column: entry `i` is missing for `i < 3`,
otherwise `v i / v (i-3) - 1` (missing if the denominator is zero; see the
header note — unreachable on `dailyGrowth` outputs). -/
def pct3 (cs : List Nat) : List (Option ℚ) :=
  (List.range cs.length).map (fun i =>
    if 3 ≤ i ∧ cs.getD (i - 3) 0 ≠ 0 then
      some ((cs.getD i 0 : ℚ) / (cs.getD (i - 3) 0 : ℚ) - 1)
    else none)

/-- `Series.idxmax` over an optional column: the first index attaining the
maximum among the present values, `none` when every value is missing. -/
def idxmaxStep (x : Option ℚ) (rest : Option (Nat × ℚ)) : Option (Nat × ℚ) :=
  match x, rest with
  | none, none => none
  | some v, none => some (0, v)
  | none, some (j, m) => some (j + 1, m)
  | some v, some (j, m) => if v < m then some (j + 1, m) else some (0, v)

def idxmax : List (Option ℚ) → Option (Nat × ℚ)
  | [] => none
  | x :: r => idxmaxStep x (idxmax r)

/-- The spike result: peak day, window start three days earlier, and the
maximal 3-day relative growth. -/
structure SpikeWindow where
  window_start : Int
  window_end : Int
  relative_growth : ℚ
deriving DecidableEq

/-- The spike analysis: `none` is the "Not enough data" outcome (all
`pct_change_3d` values missing); otherwise the peak day found by `idxmax`
with `window_start = peak - 3 days`. -/
def detectSpike (growth : List (Int × Nat)) : Option SpikeWindow :=
  match idxmax (pct3 (growth.map Prod.snd)) with
  | none => none
  | some (i, v) =>
    some ⟨(growth.getD i (0, 0)).1 - 3, (growth.getD i (0, 0)).1, v⟩

/-! ### Catalyst Window Search (`catalysts`) -/

/-- The catalyst search: posts with `post_date` in
`[window_start - 2 days, window_end]` inclusive, taken from the processed
(published, ascending) post list. -/
def catalystSearch (posts : List PostRow) (sw : SpikeWindow) : List PostRow :=
  posts.filter (fun r =>
    decide ((sw.window_start - 2) * secPerDay ≤ r.post_date) &&
    decide (r.post_date ≤ sw.window_end * secPerDay))

/-! ### Helper lemmas: folds, filters, indexing -/

theorem get_eq_getD {α : Type} (l : List α) (i : Nat) (h : i < l.length) (d : α) :
    l.get ⟨i, h⟩ = l.getD i d := by
  rw [List.getD_eq_getElem?_getD, List.getElem?_eq_getElem h]
  rfl

theorem getD_map_snd (l : List (Int × Nat)) (i : Nat) (hi : i < l.length) :
    (l.map Prod.snd).getD i 0 = (l.getD i (0, 0)).2 := by
  rw [List.getD_eq_getElem?_getD, List.getD_eq_getElem?_getD, List.getElem?_map,
    List.getElem?_eq_getElem hi]
  rfl

theorem foldl_min_le_init (l : List Int) (a : Int) : l.foldl min a ≤ a := by
  induction l generalizing a with
  | nil => simp
  | cons x r ih => exact le_trans (ih (min a x)) (min_le_left a x)

theorem foldl_min_le_mem (l : List Int) (a : Int) : ∀ x ∈ l, l.foldl min a ≤ x := by
  induction l generalizing a with
  | nil => simp
  | cons y r ih =>
    intro x hx
    rcases List.mem_cons.mp hx with rfl | hx
    · exact le_trans (foldl_min_le_init r (min a x)) (min_le_right a x)
    · exact ih (min a y) x hx

theorem foldl_min_mem (l : List Int) (a : Int) : l.foldl min a = a ∨ l.foldl min a ∈ l := by
  induction l generalizing a with
  | nil => simp
  | cons y r ih =>
    show r.foldl min (min a y) = a ∨ r.foldl min (min a y) ∈ y :: r
    rcases ih (min a y) with h | h
    · rw [h]
      rcases min_choice a y with h2 | h2
      · exact Or.inl h2
      · rw [h2]
        exact Or.inr (List.mem_cons_self y r)
    · exact Or.inr (List.mem_cons_of_mem y h)

theorem le_foldl_max_init (l : List Int) (a : Int) : a ≤ l.foldl max a := by
  induction l generalizing a with
  | nil => simp
  | cons x r ih => exact le_trans (le_max_left a x) (ih (max a x))

theorem le_foldl_max_mem (l : List Int) (a : Int) : ∀ x ∈ l, x ≤ l.foldl max a := by
  induction l generalizing a with
  | nil => simp
  | cons y r ih =>
    intro x hx
    rcases List.mem_cons.mp hx with rfl | hx
    · exact le_trans (le_max_right a x) (le_foldl_max_init r (max a x))
    · exact ih (max a y) x hx

theorem foldl_max_mem (l : List Int) (a : Int) : l.foldl max a = a ∨ l.foldl max a ∈ l := by
  induction l generalizing a with
  | nil => simp
  | cons y r ih =>
    show r.foldl max (max a y) = a ∨ r.foldl max (max a y) ∈ y :: r
    rcases ih (max a y) with h | h
    · rw [h]
      rcases max_choice a y with h2 | h2
      · exact Or.inl h2
      · rw [h2]
        exact Or.inr (List.mem_cons_self y r)
    · exact Or.inr (List.mem_cons_of_mem y h)

theorem length_filter_or {α : Type} (p q pq : α → Bool) (l : List α)
    (h : ∀ a ∈ l, pq a = (p a || q a)) (hd : ∀ a ∈ l, p a = true → q a = false) :
    (l.filter pq).length = (l.filter p).length + (l.filter q).length := by
  induction l with
  | nil => simp
  | cons x r ih =>
    have hx := h x (List.mem_cons_self x r)
    have ihr := ih (fun a ha => h a (List.mem_cons_of_mem x ha))
      (fun a ha => hd a (List.mem_cons_of_mem x ha))
    by_cases hp : p x = true
    · have hq := hd x (List.mem_cons_self x r) hp
      simp [List.filter_cons, hx, hp, hq, ihr]
      omega
    · by_cases hq : q x = true
      · simp [List.filter_cons, hx, hp, hq, ihr, Bool.eq_false_iff.mpr hp]
        omega
      · simp [List.filter_cons, hx, hp, hq, ihr, Bool.eq_false_iff.mpr hp]

theorem length_filter_mono {α : Type} (p q : α → Bool) (l : List α)
    (h : ∀ a ∈ l, p a = true → q a = true) :
    (l.filter p).length ≤ (l.filter q).length := by
  induction l with
  | nil => simp
  | cons x r ih =>
    have ihr := ih (fun a ha => h a (List.mem_cons_of_mem x ha))
    by_cases hp : p x = true
    · have hq := h x (List.mem_cons_self x r) hp
      simp [List.filter_cons, hp, hq]
      omega
    · by_cases hq : q x = true <;>
        simp [List.filter_cons, hp, hq, Bool.eq_false_iff.mpr hp] <;> omega

theorem getD_none_of_all_none (l : List (Option ℚ)) (h : ∀ y ∈ l, y = none) (j : Nat) :
    l.getD j none = none := by
  induction l generalizing j with
  | nil => simp
  | cons x r ih =>
    cases j with
    | zero => exact h x (List.mem_cons_self x r)
    | succ j =>
      rw [List.getD_cons_succ]
      exact ih (fun y hy => h y (List.mem_cons_of_mem x hy)) j

/-! ### The dense daily series: lengths and the indexing formula -/

theorem cumsumSnd_length (acc : Nat) (l : List (Int × Nat)) :
    (cumsumSnd acc l).length = l.length := by
  induction l generalizing acc with
  | nil => rfl
  | cons x r ih =>
    obtain ⟨d, n⟩ := x
    simp [cumsumSnd, ih]

theorem daysFrom_length (d0 : Int) (k : Nat) : (daysFrom d0 k).length = k := by
  induction k generalizing d0 with
  | zero => rfl
  | succ k ih => simp [daysFrom, ih]

theorem dailyGrowth_length (ts : List Int) : (dailyGrowth ts).length = numDays ts := by
  rw [dailyGrowth, cumsumSnd_length, dailySizes, List.length_map, daysFrom_length]

theorem countIn_one (ts : List Int) (d0 : Int) : countIn ts d0 1 = newOnDay ts d0 := by
  unfold countIn newOnDay
  congr 1
  apply List.filter_congr
  intro x _
  rw [decide_eq_decide]
  omega

theorem countIn_succ_left (ts : List Int) (d0 : Int) (m : Nat) :
    countIn ts d0 (m + 1) = newOnDay ts d0 + countIn ts (d0 + 1) m := by
  unfold countIn newOnDay
  rw [length_filter_or (fun t => decide (dayOf t = d0))
    (fun t => decide (d0 + 1 ≤ dayOf t ∧ dayOf t < d0 + 1 + (m : Int)))
    (fun t => decide (d0 ≤ dayOf t ∧ dayOf t < d0 + ((m + 1 : Nat) : Int))) ts]
  · intro a _
    rw [Bool.eq_iff_iff]
    simp only [decide_eq_true_eq, Bool.or_eq_true]
    omega
  · intro a _
    simp only [decide_eq_true_eq, decide_eq_false_iff_not]
    omega

theorem cumsum_daysFrom_getD (ts : List Int) :
    ∀ (k : Nat) (d0 : Int) (acc : Nat) (i : Nat), i < k →
      (cumsumSnd acc ((daysFrom d0 k).map (fun d => (d, newOnDay ts d)))).getD i (0, 0)
        = (d0 + i, acc + countIn ts d0 (i + 1)) := by
  intro k
  induction k with
  | zero => intro d0 acc i hi; omega
  | succ k ih =>
    intro d0 acc i hi
    cases i with
    | zero =>
      simp only [daysFrom, List.map_cons, cumsumSnd, List.getD_cons_zero]
      simp [countIn_one]
    | succ i =>
      simp only [daysFrom, List.map_cons, cumsumSnd, List.getD_cons_succ]
      rw [ih (d0 + 1) (acc + newOnDay ts d0) i (by omega)]
      rw [countIn_succ_left ts d0 (i + 1)]
      simp only [Prod.mk.injEq]
      refine ⟨by omega, by omega⟩

theorem firstDay_le (ts : List Int) : ∀ t ∈ ts, firstDay ts ≤ dayOf t := by
  cases ts with
  | nil => intro t ht; cases ht
  | cons t r =>
    intro x hx
    rcases List.mem_cons.mp hx with rfl | hx
    · exact foldl_min_le_init (r.map dayOf) (dayOf x)
    · exact foldl_min_le_mem (r.map dayOf) (dayOf t) (dayOf x) (List.mem_map_of_mem dayOf hx)

theorem le_lastDay (ts : List Int) : ∀ t ∈ ts, dayOf t ≤ lastDay ts := by
  cases ts with
  | nil => intro t ht; cases ht
  | cons t r =>
    intro x hx
    rcases List.mem_cons.mp hx with rfl | hx
    · exact le_foldl_max_init (r.map dayOf) (dayOf x)
    · exact le_foldl_max_mem (r.map dayOf) (dayOf t) (dayOf x) (List.mem_map_of_mem dayOf hx)

theorem firstDay_attained (ts : List Int) (h : ts ≠ []) : ∃ t ∈ ts, dayOf t = firstDay ts := by
  cases ts with
  | nil => exact absurd rfl h
  | cons t r =>
    rcases foldl_min_mem (r.map dayOf) (dayOf t) with h2 | h2
    · exact ⟨t, List.mem_cons_self t r, h2.symm⟩
    · obtain ⟨x, hx, hx2⟩ := List.mem_map.mp h2
      exact ⟨x, List.mem_cons_of_mem t hx, hx2⟩

theorem lastDay_attained (ts : List Int) (h : ts ≠ []) : ∃ t ∈ ts, dayOf t = lastDay ts := by
  cases ts with
  | nil => exact absurd rfl h
  | cons t r =>
    rcases foldl_max_mem (r.map dayOf) (dayOf t) with h2 | h2
    · exact ⟨t, List.mem_cons_self t r, h2.symm⟩
    · obtain ⟨x, hx, hx2⟩ := List.mem_map.mp h2
      exact ⟨x, List.mem_cons_of_mem t hx, hx2⟩

theorem firstDay_le_lastDay (ts : List Int) (h : ts ≠ []) : firstDay ts ≤ lastDay ts := by
  obtain ⟨t, ht, _⟩ := firstDay_attained ts h
  exact le_trans (firstDay_le ts t ht) (le_lastDay ts t ht)

theorem numDays_cast (ts : List Int) (h : ts ≠ []) :
    (numDays ts : Int) = lastDay ts - firstDay ts + 1 := by
  have hle := firstDay_le_lastDay ts h
  cases ts with
  | nil => exact absurd rfl h
  | cons t r =>
    show ((lastDay (t :: r) - firstDay (t :: r) + 1).toNat : Int) = _
    omega

theorem numDays_pos (ts : List Int) (h : ts ≠ []) : 0 < numDays ts := by
  have := numDays_cast ts h
  have := firstDay_le_lastDay ts h
  omega

/-! ### `cumThrough`: the cumulative column in counting form -/

theorem countIn_eq_cumThrough (ts : List Int) (d0 : Int) (i : Nat)
    (h : ∀ t ∈ ts, d0 ≤ dayOf t) :
    countIn ts d0 (i + 1) = cumThrough ts (d0 + i) := by
  unfold countIn cumThrough
  congr 1
  apply List.filter_congr
  intro x hx
  have := h x hx
  rw [decide_eq_decide]
  omega

theorem dailyGrowth_getD (ts : List Int) (i : Nat) (hi : i < numDays ts) :
    (dailyGrowth ts).getD i (0, 0) = (firstDay ts + i, cumThrough ts (firstDay ts + i)) := by
  rw [dailyGrowth, dailySizes, cumsum_daysFrom_getD ts (numDays ts) (firstDay ts) 0 i hi,
    countIn_eq_cumThrough ts (firstDay ts) i (firstDay_le ts)]
  simp

theorem cumThrough_mono (ts : List Int) (d d2 : Int) (h : d ≤ d2) :
    cumThrough ts d ≤ cumThrough ts d2 := by
  unfold cumThrough
  apply length_filter_mono
  intro a _
  simp only [decide_eq_true_eq]
  omega

theorem cumThrough_firstDay_pos (ts : List Int) (h : ts ≠ []) :
    1 ≤ cumThrough ts (firstDay ts) := by
  obtain ⟨t, ht, ht2⟩ := firstDay_attained ts h
  have hmem : t ∈ ts.filter (fun t => decide (dayOf t ≤ firstDay ts)) :=
    List.mem_filter.mpr ⟨ht, by simp [ht2]⟩
  exact List.length_pos.mpr (List.ne_nil_of_mem hmem)

theorem cumThrough_pos (ts : List Int) (h : ts ≠ []) (d : Int) (hd : firstDay ts ≤ d) :
    1 ≤ cumThrough ts d :=
  le_trans (cumThrough_firstDay_pos ts h) (cumThrough_mono ts (firstDay ts) d hd)

theorem cumThrough_lastDay (ts : List Int) : cumThrough ts (lastDay ts) = ts.length := by
  unfold cumThrough
  rw [List.filter_eq_self.mpr]
  intro a ha
  simpa using le_lastDay ts a ha

theorem cumThrough_step (ts : List Int) (d : Int) :
    cumThrough ts (d + 1) = cumThrough ts d + newOnDay ts (d + 1) := by
  unfold cumThrough newOnDay
  rw [length_filter_or (fun t => decide (dayOf t ≤ d)) (fun t => decide (dayOf t = d + 1))
    (fun t => decide (dayOf t ≤ d + 1)) ts]
  · intro a _
    rw [Bool.eq_iff_iff]
    simp only [decide_eq_true_eq, Bool.or_eq_true]
    omega
  · intro a _
    simp only [decide_eq_true_eq, decide_eq_false_iff_not]
    omega

/-! ### `idxmax` and `pct3` -/

theorem pct3_length (cs : List Nat) : (pct3 cs).length = cs.length := by
  simp [pct3]

theorem pct3_getD (cs : List Nat) (i : Nat) (hi : i < cs.length) :
    (pct3 cs).getD i none =
      if 3 ≤ i ∧ cs.getD (i - 3) 0 ≠ 0 then
        some ((cs.getD i 0 : ℚ) / (cs.getD (i - 3) 0 : ℚ) - 1)
      else none := by
  rw [pct3, List.getD_eq_getElem?_getD, List.getElem?_map, List.getElem?_range hi]
  rfl

theorem idxmax_eq_none_iff (xs : List (Option ℚ)) :
    idxmax xs = none ↔ ∀ x ∈ xs, x = none := by
  induction xs with
  | nil => simp [idxmax]
  | cons x r ih =>
    rw [idxmax]
    cases x with
    | none =>
      cases hr : idxmax r with
      | none =>
        simp only [hr, idxmaxStep]
        constructor
        · intro _ y hy
          rcases List.mem_cons.mp hy with rfl | hy
          · rfl
          · exact (ih.mp hr) y hy
        · intro _
          trivial
      | some p =>
        obtain ⟨j, m⟩ := p
        simp only [hr, idxmaxStep]
        constructor
        · intro hc
          cases hc
        · intro hall
          exact absurd (ih.mpr fun y hy => hall y (List.mem_cons_of_mem _ hy))
            (by simp [hr])
    | some v =>
      have hne : idxmaxStep (some v) (idxmax r) ≠ none := by
        cases hr : idxmax r with
        | none => simp [idxmaxStep]
        | some p =>
          obtain ⟨j, m⟩ := p
          simp only [idxmaxStep]
          split <;> simp
      constructor
      · intro hc
        exact absurd hc hne
      · intro hall
        exact absurd (hall (some v) (List.mem_cons_self _ _)) (by simp)

theorem idxmax_spec (xs : List (Option ℚ)) :
    ∀ (i : Nat) (v : ℚ), idxmax xs = some (i, v) →
      i < xs.length ∧ xs.getD i none = some v ∧
      (∀ j w, xs.getD j none = some w → w ≤ v) ∧
      (∀ j w, j < i → xs.getD j none = some w → w < v) := by
  induction xs with
  | nil => intro i v h; cases h
  | cons x r ih =>
    intro i v h
    rw [idxmax] at h
    cases x with
    | none =>
      cases hr : idxmax r with
      | none =>
        rw [hr] at h
        cases h
      | some p =>
        obtain ⟨j0, m⟩ := p
        rw [hr] at h
        simp only [idxmaxStep, Option.some.injEq, Prod.mk.injEq] at h
        obtain ⟨rfl, rfl⟩ := h
        obtain ⟨hlen, hget, hmax, hfirst⟩ := ih j0 m hr
        refine ⟨by simpa using Nat.succ_lt_succ hlen, by simpa using hget, ?_, ?_⟩
        · intro j w hj
          cases j with
          | zero => cases hj
          | succ j => exact hmax j w (by simpa using hj)
        · intro j w hjlt hj
          cases j with
          | zero => cases hj
          | succ j => exact hfirst j w (by omega) (by simpa using hj)
    | some v0 =>
      cases hr : idxmax r with
      | none =>
        rw [hr] at h
        simp only [idxmaxStep, Option.some.injEq, Prod.mk.injEq] at h
        obtain ⟨rfl, rfl⟩ := h
        have hall := (idxmax_eq_none_iff r).mp hr
        refine ⟨by simp, by simp, ?_, ?_⟩
        · intro j w hj
          cases j with
          | zero =>
            cases hj
            exact le_refl _
          | succ j =>
            rw [List.getD_cons_succ, getD_none_of_all_none r hall j] at hj
            cases hj
        · intro j w hjlt hj
          omega
      | some p =>
        obtain ⟨j0, m⟩ := p
        obtain ⟨hlen, hget, hmax, hfirst⟩ := ih j0 m hr
        rw [hr] at h
        simp only [idxmaxStep] at h
        by_cases hvm : v0 < m
        · rw [if_pos hvm] at h
          simp only [Option.some.injEq, Prod.mk.injEq] at h
          obtain ⟨rfl, rfl⟩ := h
          refine ⟨by simpa using Nat.succ_lt_succ hlen, by simpa using hget, ?_, ?_⟩
          · intro j w hj
            cases j with
            | zero =>
              cases hj
              exact le_of_lt hvm
            | succ j => exact hmax j w (by simpa using hj)
          · intro j w hjlt hj
            cases j with
            | zero =>
              cases hj
              exact hvm
            | succ j => exact hfirst j w (by omega) (by simpa using hj)
        · rw [if_neg hvm] at h
          simp only [Option.some.injEq, Prod.mk.injEq] at h
          obtain ⟨rfl, rfl⟩ := h
          refine ⟨by simp, by simp, ?_, ?_⟩
          · intro j w hj
            cases j with
            | zero =>
              cases hj
              exact le_refl _
            | succ j =>
              exact le_trans (hmax j w (by simpa using hj)) (not_lt.mp hvm)
          · intro j w hjlt hj
            omega

/-! ### `nearestGrowth` -/

theorem nearestGrowth_mem (growth : List (Int × Nat)) (t : Int) :
    ∀ q, nearestGrowth growth t = some q → q ∈ growth := by
  induction growth with
  | nil => intro q h; cases h
  | cons p r ih =>
    intro q h
    rw [nearestGrowth] at h
    cases hr : nearestGrowth r t with
    | none =>
      rw [hr] at h
      cases h
      exact List.mem_cons_self _ _
    | some q2 =>
      rw [hr] at h
      simp only [nearerStep] at h
      by_cases hd : absDist t q2 < absDist t p
      · rw [if_pos hd] at h
        cases h
        exact List.mem_cons_of_mem p (ih _ hr)
      · rw [if_neg hd] at h
        cases h
        exact List.mem_cons_self _ _

theorem nearestGrowth_first_argmin (growth : List (Int × Nat)) (t : Int) :
    ∀ (i : Nat), i < growth.length →
      (∀ j, j < growth.length →
        absDist t (growth.getD i (0, 0)) ≤ absDist t (growth.getD j (0, 0))) →
      (∀ j, j < i →
        absDist t (growth.getD i (0, 0)) < absDist t (growth.getD j (0, 0))) →
      nearestGrowth growth t = some (growth.getD i (0, 0)) := by
  induction growth with
  | nil =>
    intro i hi
    exact absurd hi (by simp)
  | cons p r ih =>
    intro i hi hmin hfirst
    cases i with
    | zero =>
      rw [nearestGrowth]
      cases hr : nearestGrowth r t with
      | none => rw [List.getD_cons_zero, nearerStep]
      | some q =>
        have hqmem := nearestGrowth_mem r t q hr
        obtain ⟨j, hj, hjq⟩ := List.mem_iff_getElem.mp hqmem
        have hq : r.getD j (0, 0) = q := by
          rw [List.getD_eq_getElem?_getD, List.getElem?_eq_getElem hj, hjq]
          rfl
        have hle := hmin (j + 1) (by simpa using Nat.succ_lt_succ hj)
        rw [List.getD_cons_succ, List.getD_cons_zero, hq] at hle
        rw [List.getD_cons_zero]
        simp only [nearerStep]
        rw [if_neg (not_lt.mpr hle)]
    | succ i =>
      rw [nearestGrowth]
      have hlen : i < r.length := by simpa using Nat.lt_of_succ_lt_succ hi
      have hrec : nearestGrowth r t = some (r.getD i (0, 0)) := by
        apply ih i hlen
        · intro j hj
          have := hmin (j + 1) (by simpa using Nat.succ_lt_succ hj)
          simpa using this
        · intro j hj
          have := hfirst (j + 1) (by omega)
          simpa using this
      rw [hrec]
      have h0 := hfirst 0 (Nat.succ_pos i)
      rw [List.getD_cons_succ, List.getD_cons_zero] at h0
      simp only [nearerStep]
      rw [if_pos h0, List.getD_cons_succ]

/-! ### Claim theorems -/

/-- C2: for every sequence of subscriber events, the daily cumulative series
built by the Cumulative Growth Builder is non-decreasing across the ordered
sequence, and for non-empty input its final value equals the total count of
subscriber events. -/
theorem claim_C2 (ts : List Int) :
    List.Chain' (fun p q : Int × Nat => p.2 ≤ q.2) (dailyGrowth ts) ∧
    (ts ≠ [] →
      ((dailyGrowth ts).getD ((dailyGrowth ts).length - 1) (0, 0)).2 = ts.length) := by
  have hlen : (dailyGrowth ts).length = numDays ts := dailyGrowth_length ts
  constructor
  · rw [List.chain'_iff_get]
    intro i hlt
    have h1 : i < numDays ts := by omega
    have h2 : i + 1 < numDays ts := by omega
    rw [get_eq_getD _ _ _ (0, 0), get_eq_getD _ _ _ (0, 0),
      dailyGrowth_getD ts i h1, dailyGrowth_getD ts (i + 1) h2]
    exact cumThrough_mono ts _ _ (by omega)
  · intro hne
    have hpos : 0 < numDays ts := numDays_pos ts hne
    have hcast := numDays_cast ts hne
    rw [hlen, dailyGrowth_getD ts (numDays ts - 1) (by omega)]
    have hday : firstDay ts + ((numDays ts - 1 : Nat) : Int) = lastDay ts := by omega
    rw [hday, cumThrough_lastDay]

theorem claim_C2_witness :
    ((dailyGrowth [0]).getD ((dailyGrowth [0]).length - 1) (0, 0)).2 = [0].length :=
  (claim_C2 [0]).2 (by decide)

/-- C3: the daily growth series is dense: for non-empty input it has exactly
`lastDay - firstDay + 1` points, the `i`-th point is day `firstDay + i` (no
gaps), and a day with no joins carries the prior cumulative value forward;
an empty input yields an empty series and a single event a one-day series
with cumulative 1. -/
theorem claim_C3 (ts : List Int) :
    (ts ≠ [] →
      ((dailyGrowth ts).length : Int) = lastDay ts - firstDay ts + 1 ∧
      (∀ i, i < (dailyGrowth ts).length →
        ((dailyGrowth ts).getD i (0, 0)).1 = firstDay ts + i) ∧
      (∀ i, i + 1 < (dailyGrowth ts).length →
        newOnDay ts (((dailyGrowth ts).getD (i + 1) (0, 0)).1) = 0 →
          ((dailyGrowth ts).getD (i + 1) (0, 0)).2 = ((dailyGrowth ts).getD i (0, 0)).2)) ∧
    dailyGrowth [] = [] ∧
    (∀ t, dailyGrowth [t] = [(dayOf t, 1)]) := by
  have hlen : (dailyGrowth ts).length = numDays ts := dailyGrowth_length ts
  refine ⟨fun hne => ⟨?_, ?_, ?_⟩, rfl, ?_⟩
  · rw [hlen, numDays_cast ts hne]
  · intro i hi
    rw [hlen] at hi
    rw [dailyGrowth_getD ts i hi]
  · intro i hi hzero
    rw [hlen] at hi
    rw [dailyGrowth_getD ts (i + 1) hi] at hzero
    rw [dailyGrowth_getD ts (i + 1) hi, dailyGrowth_getD ts i (by omega)]
    have hz2 : newOnDay ts (firstDay ts + ((i + 1 : Nat) : Int)) = 0 := hzero
    show cumThrough ts (firstDay ts + ((i + 1 : Nat) : Int)) =
      cumThrough ts (firstDay ts + (i : Int))
    have hday : firstDay ts + ((i + 1 : Nat) : Int) = (firstDay ts + (i : Int)) + 1 := by
      push_cast
      ring
    rw [hday] at hz2 ⊢
    rw [cumThrough_step]
    omega
  · intro t
    have h1 : newOnDay [t] (dayOf t) = 1 := by
      unfold newOnDay
      simp
    simp [dailyGrowth, dailySizes, numDays, firstDay, lastDay, daysFrom, cumsumSnd, h1]

theorem claim_C3_witness :
    ((dailyGrowth [0, 172800]).getD (0 + 1) (0, 0)).2 =
      ((dailyGrowth [0, 172800]).getD 0 (0, 0)).2 :=
  ((claim_C3 [0, 172800]).1 (by decide)).2.2 0 (by decide) (by decide)

/-- C7: the Table Normalizer fails (returns `none`, the SchemaError path)
exactly when the mandatory timestamp column is absent — `created_at` for
subscribers, `post_date` for posts — and when the column is present it
returns the events sorted into canonical ascending order. -/
theorem claim_C7 :
    (∀ t : RawSubscriberTable, process_subscribers t = none ↔ t.created_at? = none) ∧
    (∀ t : RawPostTable, process_posts t = none ↔ t.hasPostDate = false) ∧
    (∀ (t : RawSubscriberTable) (col : List Int), t.created_at? = some col →
      ∃ l, process_subscribers t = some l ∧
        List.Pairwise (fun a b : Int => a ≤ b) l ∧ l.Perm col) := by
  refine ⟨?_, ?_, ?_⟩
  · intro t
    obtain ⟨col?⟩ := t
    cases col? <;> simp [process_subscribers]
  · intro t
    cases hp : t.hasPostDate <;> simp [process_posts, hp]
  · intro t col hcol
    refine ⟨sortSubs col, ?_, ?_, ?_⟩
    · rw [process_subscribers, hcol]
    · exact List.sorted_insertionSort (fun a b : Int => a ≤ b) col
    · exact List.perm_insertionSort (fun a b : Int => a ≤ b) col

theorem claim_C7_witness :
    ∃ l, process_subscribers ⟨some [5, 3]⟩ = some l ∧
      List.Pairwise (fun a b : Int => a ≤ b) l ∧ l.Perm [5, 3] :=
  claim_C7.2.2 ⟨some [5, 3]⟩ [5, 3] rfl

/-- C8: the `is_published` flag is parsed by coercing to string, lowercasing
and comparing to the literal "true"; rows failing the test are excluded from
the processed output, and when the column is absent every row is kept. -/
theorem claim_C8 (t : RawPostTable) (h : t.hasPostDate = true) (r : PostRow) :
    (r ∈ (process_posts t).getD [] ↔
      r ∈ t.rows ∧ (t.hasIsPublished = true → r.is_published.toLower = "true")) ∧
    parsePublished r.is_published = (r.is_published.toLower == "true") := by
  refine ⟨?_, rfl⟩
  cases hip : t.hasIsPublished with
  | false =>
    simp [process_posts, h, hip, sortPosts]
  | true =>
    simp [process_posts, h, hip, sortPosts, List.mem_filter, parsePublished]

theorem claim_C8_witness :
    ((⟨5, "TRUE", "a"⟩ : PostRow) ∈
        (process_posts ⟨true, true, [⟨5, "TRUE", "a"⟩, ⟨7, "no", "b"⟩]⟩).getD [] ↔
      (⟨5, "TRUE", "a"⟩ : PostRow) ∈
          ([⟨5, "TRUE", "a"⟩, ⟨7, "no", "b"⟩] : List PostRow) ∧
        (true = true → ("TRUE" : String).toLower = "true")) ∧
    parsePublished "TRUE" = (("TRUE" : String).toLower == "true") :=
  claim_C8 ⟨true, true, [⟨5, "TRUE", "a"⟩, ⟨7, "no", "b"⟩]⟩ rfl ⟨5, "TRUE", "a"⟩

/-- Every cumulative value of a non-empty daily series is at least 1. -/
theorem growth_cum_ge_one (ts : List Int) (h : ts ≠ []) (i : Nat)
    (hi : i < (dailyGrowth ts).length) :
    1 ≤ ((dailyGrowth ts).getD i (0, 0)).2 := by
  have hlen : (dailyGrowth ts).length = numDays ts := dailyGrowth_length ts
  rw [hlen] at hi
  rw [dailyGrowth_getD ts i hi]
  exact cumThrough_pos ts h _ (by omega)

/-- For a non-empty series, the 3-day denominator at any index `i ≥ 3` is
nonzero, so the `pct_change_3d` entry there is defined. -/
theorem growth_ratio_defined (ts : List Int) (h : ts ≠ []) (i : Nat)
    (hi : i < (dailyGrowth ts).length) (h3 : 3 ≤ i) :
    ((dailyGrowth ts).map Prod.snd).getD (i - 3) 0 ≠ 0 ∧
    (pct3 ((dailyGrowth ts).map Prod.snd)).getD i none ≠ none := by
  have hd : ((dailyGrowth ts).map Prod.snd).getD (i - 3) 0 ≠ 0 := by
    rw [getD_map_snd _ _ (by omega)]
    have := growth_cum_ge_one ts h (i - 3) (by omega)
    omega
  refine ⟨hd, ?_⟩
  rw [pct3_getD _ _ (by simpa using hi), if_pos ⟨h3, hd⟩]
  simp

/-- C10: for every non-empty subscriber input, every cumulative value of the
daily growth series is at least 1, so the Spike Detector's 3-day denominator
`cumulative (i-3)` is never zero and every ratio at index `i ≥ 3` is
defined. -/
theorem claim_C10 (ts : List Int) (h : ts ≠ []) :
    (∀ p ∈ dailyGrowth ts, 1 ≤ p.2) ∧
    (∀ i, i < (dailyGrowth ts).length → 3 ≤ i →
      ((dailyGrowth ts).map Prod.snd).getD (i - 3) 0 ≠ 0 ∧
      (pct3 ((dailyGrowth ts).map Prod.snd)).getD i none ≠ none) := by
  constructor
  · intro p hp
    obtain ⟨i, hi, hig⟩ := List.mem_iff_getElem.mp hp
    have hpd : (dailyGrowth ts).getD i (0, 0) = p := by
      rw [List.getD_eq_getElem?_getD, List.getElem?_eq_getElem hi, hig]
      rfl
    rw [← hpd]
    exact growth_cum_ge_one ts h i hi
  · intro i hi h3
    exact growth_ratio_defined ts h i hi h3

theorem claim_C10_witness :
    ((dailyGrowth [0, 259200]).map Prod.snd).getD (3 - 3) 0 ≠ 0 ∧
    (pct3 ((dailyGrowth [0, 259200]).map Prod.snd)).getD 3 none ≠ none :=
  (claim_C10 [0, 259200] (by decide)).2 3 (by decide) (by decide)

/-- C1: the Spike Detector on the dense daily series: indices below 3 have
no ratio; every index `i ≥ 3` has the defined ratio
`(cumulative i - cumulative (i-3)) / cumulative (i-3)`; the detector reports
"not enough data" (`none`) exactly when the series has fewer than 4 days,
which coincides with all ratios being undefined; otherwise it returns the
first index attaining the maximal ratio (first occurrence winning ties) with
`window_start = window_end - 3 days`; and on the series `[1,1,1,4]` the only
defined ratio is `3` at index 3, which is selected. -/
theorem claim_C1 (ts : List Int) :
    (∀ i, i < (dailyGrowth ts).length → i < 3 →
      (pct3 ((dailyGrowth ts).map Prod.snd)).getD i none = none) ∧
    (∀ i, i < (dailyGrowth ts).length → 3 ≤ i →
      (pct3 ((dailyGrowth ts).map Prod.snd)).getD i none =
        some (((((dailyGrowth ts).map Prod.snd).getD i 0 : ℚ) -
            (((dailyGrowth ts).map Prod.snd).getD (i - 3) 0 : ℚ)) /
          (((dailyGrowth ts).map Prod.snd).getD (i - 3) 0 : ℚ))) ∧
    (detectSpike (dailyGrowth ts) = none ↔ (dailyGrowth ts).length < 4) ∧
    ((∀ x ∈ pct3 ((dailyGrowth ts).map Prod.snd), x = none) ↔
      (dailyGrowth ts).length < 4) ∧
    (∀ sw, detectSpike (dailyGrowth ts) = some sw →
      sw.window_start = sw.window_end - 3 ∧
      ∃ i, i < (dailyGrowth ts).length ∧
        sw.window_end = ((dailyGrowth ts).getD i (0, 0)).1 ∧
        (pct3 ((dailyGrowth ts).map Prod.snd)).getD i none = some sw.relative_growth ∧
        (∀ j w, (pct3 ((dailyGrowth ts).map Prod.snd)).getD j none = some w →
          w ≤ sw.relative_growth) ∧
        (∀ j w, j < i →
          (pct3 ((dailyGrowth ts).map Prod.snd)).getD j none = some w →
          w < sw.relative_growth)) ∧
    detectSpike (dailyGrowth [0, 259200, 259201, 259202]) = some ⟨0, 3, 3⟩ := by
  have hmap : ((dailyGrowth ts).map Prod.snd).length = (dailyGrowth ts).length :=
    List.length_map _ _
  have hne_of_pos : 0 < (dailyGrowth ts).length → ts ≠ [] := by
    intro hpos heq
    rw [heq] at hpos
    simp [dailyGrowth, dailySizes, numDays, daysFrom, cumsumSnd] at hpos
  have hlow : ∀ i, i < (dailyGrowth ts).length → i < 3 →
      (pct3 ((dailyGrowth ts).map Prod.snd)).getD i none = none := by
    intro i hi h3
    rw [pct3_getD _ _ (by omega), if_neg]
    intro hc
    omega
  have hhigh : ∀ i, i < (dailyGrowth ts).length → 3 ≤ i →
      (pct3 ((dailyGrowth ts).map Prod.snd)).getD i none =
        some (((((dailyGrowth ts).map Prod.snd).getD i 0 : ℚ) -
            (((dailyGrowth ts).map Prod.snd).getD (i - 3) 0 : ℚ)) /
          (((dailyGrowth ts).map Prod.snd).getD (i - 3) 0 : ℚ)) := by
    intro i hi h3
    have hne : ts ≠ [] := hne_of_pos (by omega)
    obtain ⟨hd, -⟩ := growth_ratio_defined ts hne i hi h3
    rw [pct3_getD _ _ (by omega), if_pos ⟨h3, hd⟩]
    have hdq : (((dailyGrowth ts).map Prod.snd).getD (i - 3) 0 : ℚ) ≠ 0 := by
      exact_mod_cast hd
    rw [sub_div, div_self hdq]
  have hallnone : (∀ x ∈ pct3 ((dailyGrowth ts).map Prod.snd), x = none) ↔
      (dailyGrowth ts).length < 4 := by
    constructor
    · intro hall
      by_contra hge
      push_neg at hge
      have h3p : (3 : Nat) < (pct3 ((dailyGrowth ts).map Prod.snd)).length := by
        rw [pct3_length]
        omega
      have hmem := List.get_mem (pct3 ((dailyGrowth ts).map Prod.snd)) 3 h3p
      have hval := hall _ hmem
      rw [get_eq_getD _ _ _ none, hhigh 3 (by omega) (le_refl 3)] at hval
      cases hval
    · intro hlt x hx
      obtain ⟨i, hi, hig⟩ := List.mem_iff_getElem.mp hx
      have hix : (pct3 ((dailyGrowth ts).map Prod.snd)).getD i none = x := by
        rw [List.getD_eq_getElem?_getD, List.getElem?_eq_getElem hi, hig]
        rfl
      rw [pct3_length, hmap] at hi
      rw [← hix]
      exact hlow i hi (by omega)
  have hdet_none : detectSpike (dailyGrowth ts) = none ↔
      idxmax (pct3 ((dailyGrowth ts).map Prod.snd)) = none := by
    rw [detectSpike]
    cases hx : idxmax (pct3 ((dailyGrowth ts).map Prod.snd)) with
    | none => simp
    | some p =>
      obtain ⟨i, v⟩ := p
      simp
  refine ⟨hlow, hhigh, ?_, hallnone, ?_, ?_⟩
  · rw [hdet_none, idxmax_eq_none_iff]
    exact hallnone
  · intro sw hsw
    rw [detectSpike] at hsw
    cases hx : idxmax (pct3 ((dailyGrowth ts).map Prod.snd)) with
    | none =>
      rw [hx] at hsw
      cases hsw
    | some p =>
      obtain ⟨i, v⟩ := p
      rw [hx] at hsw
      obtain ⟨hilen, hget, hmax, hfirst⟩ := idxmax_spec _ i v hx
      rw [pct3_length, hmap] at hilen
      cases hsw
      refine ⟨rfl, i, hilen, rfl, hget, ?_, ?_⟩
      · exact fun j w hj => hmax j w hj
      · exact fun j w hjlt hj => hfirst j w hjlt hj
  · have hg : dailyGrowth [0, 259200, 259201, 259202] = [(0, 1), (1, 1), (2, 1), (3, 4)] := by
      decide
    have hp : pct3 ([((0 : Int), (1 : Nat)), (1, 1), (2, 1), (3, 4)].map Prod.snd) =
        [none, none, none, some 3] := by
      simp [pct3, List.range_succ]
      norm_num
    rw [detectSpike, hg, hp]
    simp [idxmax, idxmaxStep]

theorem claim_C1_witness :
    (pct3 ((dailyGrowth [0]).map Prod.snd)).getD 0 none = none :=
  (claim_C1 [0]).1 0 (by decide) (by decide)

/-- C4: a content event exactly equidistant between two adjacent daily
growth points is deterministically matched to the earlier of the two days by
the nearest-neighbor join. -/
theorem claim_C4 (ts : List Int) (t : Int) (i : Nat)
    (h1 : i + 1 < (dailyGrowth ts).length)
    (heq : absDist t ((dailyGrowth ts).getD i (0, 0)) =
      absDist t ((dailyGrowth ts).getD (i + 1) (0, 0))) :
    nearestGrowth (dailyGrowth ts) t = some ((dailyGrowth ts).getD i (0, 0)) := by
  have hlen : (dailyGrowth ts).length = numDays ts := dailyGrowth_length ts
  have hdist : ∀ j, j < (dailyGrowth ts).length →
      absDist t ((dailyGrowth ts).getD j (0, 0)) =
        (t - (firstDay ts + j) * 86400).natAbs := by
    intro j hj
    rw [hlen] at hj
    rw [absDist, dateTs, dailyGrowth_getD ts j hj, secPerDay]
  rw [hdist i (by omega), hdist (i + 1) h1] at heq
  push_cast at heq
  apply nearestGrowth_first_argmin (dailyGrowth ts) t i (by omega)
  · intro j hj
    rw [hdist i (by omega), hdist j hj]
    omega
  · intro j hj
    rw [hdist i (by omega), hdist j (by omega)]
    omega

theorem claim_C4_witness :
    nearestGrowth (dailyGrowth [0, 86400]) 43200 =
      some ((dailyGrowth [0, 86400]).getD 0 (0, 0)) :=
  claim_C4 [0, 86400] 43200 0 (by decide) (by decide)

theorem nearestGrowth_isSome (growth : List (Int × Nat)) (t : Int) (h : growth ≠ []) :
    ∃ q, nearestGrowth growth t = some q := by
  cases growth with
  | nil => exact absurd rfl h
  | cons p r =>
    rw [nearestGrowth]
    cases hr : nearestGrowth r t with
    | none => exact ⟨p, rfl⟩
    | some q =>
      simp only [nearerStep]
      by_cases hd : absDist t q < absDist t p
      · exact ⟨q, by rw [if_pos hd]⟩
      · exact ⟨p, by rw [if_neg hd]⟩

/-- On a non-empty daily series, the fold minimum of the date column is the
first day and the fold maximum is the last day. -/
theorem dailyGrowth_min_max (ts : List Int) (h : ts ≠ []) (g : Int × Nat)
    (gs : List (Int × Nat)) (hg : dailyGrowth ts = g :: gs) :
    (gs.map (fun p => p.1)).foldl min g.1 = firstDay ts ∧
    (gs.map (fun p => p.1)).foldl max g.1 = lastDay ts := by
  have hlen : (dailyGrowth ts).length = numDays ts := dailyGrowth_length ts
  have hcast := numDays_cast ts h
  have hpos := numDays_pos ts h
  have hglen : gs.length + 1 = numDays ts := by
    rw [hg] at hlen
    simpa using hlen
  have hg1 : g.1 = firstDay ts := by
    have h0 : (dailyGrowth ts).getD 0 (0, 0) = g := by
      rw [hg]
      rfl
    have hm := dailyGrowth_getD ts 0 (by omega)
    rw [h0] at hm
    rw [hm]
    simp
  have hdates : ∀ x ∈ gs.map (fun p => p.1),
      ∃ j : Nat, j + 1 < numDays ts ∧ x = firstDay ts + ((j + 1 : Nat) : Int) := by
    intro x hx
    obtain ⟨p, hp, rfl⟩ := List.mem_map.mp hx
    obtain ⟨j, hj, hjp⟩ := List.mem_iff_getElem.mp hp
    have hgd : (dailyGrowth ts).getD (j + 1) (0, 0) = p := by
      rw [hg, List.getD_cons_succ, List.getD_eq_getElem?_getD,
        List.getElem?_eq_getElem hj, hjp]
      rfl
    have hm := dailyGrowth_getD ts (j + 1) (by omega)
    rw [hgd] at hm
    exact ⟨j, by omega, by rw [hm]⟩
  constructor
  · apply le_antisymm
    · rw [← hg1]
      exact foldl_min_le_init _ _
    · rcases foldl_min_mem (gs.map fun p => p.1) g.1 with he | he
      · rw [he, hg1]
      · obtain ⟨j, hj, hx⟩ := hdates _ he
        rw [hx]
        omega
  · apply le_antisymm
    · rcases foldl_max_mem (gs.map fun p => p.1) g.1 with he | he
      · rw [he, hg1]
        exact firstDay_le_lastDay ts h
      · obtain ⟨j, hj, hx⟩ := hdates _ he
        rw [hx]
        omega
    · by_cases h1 : numDays ts = 1
      · have hfl : lastDay ts = firstDay ts := by omega
        rw [hfl, ← hg1]
        exact le_foldl_max_init _ _
      · have hkl : numDays ts - 2 < gs.length := by omega
        have hj1 : (numDays ts - 2) + 1 = numDays ts - 1 := by omega
        have hgd := dailyGrowth_getD ts (numDays ts - 1) (by omega)
        have hcons : (dailyGrowth ts).getD (numDays ts - 1) (0, 0) =
            gs.getD (numDays ts - 2) (0, 0) := by
          rw [hg, ← hj1, List.getD_cons_succ]
        have hmem : gs.getD (numDays ts - 2) (0, 0) ∈ gs := by
          rw [← get_eq_getD gs (numDays ts - 2) hkl (0, 0)]
          exact List.get_mem _ _ _
        have hdate : (gs.getD (numDays ts - 2) (0, 0)).1 = lastDay ts := by
          rw [← hcons, hgd]
          show firstDay ts + ((numDays ts - 1 : Nat) : Int) = lastDay ts
          omega
        have hle := le_foldl_max_mem (gs.map fun p => p.1) g.1
          ((gs.getD (numDays ts - 2) (0, 0)).1)
          (List.mem_map_of_mem (fun p => p.1) hmem)
        rw [hdate] at hle
        exact hle

/-- C5: the Catalyst Matcher keeps exactly the content events whose
`post_date` lies within the growth series' date span, pairs each kept event
with the cumulative value of its nearest daily point, and never produces a
match for an event outside the span (and none at all on an empty series). -/
theorem claim_C5 (posts : List PostRow) (ts : List Int) (h : ts ≠ []) :
    (∀ r, r ∈ relevantPosts posts (dailyGrowth ts) ↔
      r ∈ posts ∧ firstDay ts * secPerDay ≤ r.post_date ∧
        r.post_date ≤ lastDay ts * secPerDay) ∧
    (∀ r ∈ relevantPosts posts (dailyGrowth ts),
      (r, ((nearestGrowth (dailyGrowth ts) r.post_date).getD (0, 0)).2) ∈
        matchPosts posts (dailyGrowth ts)) ∧
    (∀ pr ∈ matchPosts posts (dailyGrowth ts),
      pr.1 ∈ posts ∧ firstDay ts * secPerDay ≤ pr.1.post_date ∧
        pr.1.post_date ≤ lastDay ts * secPerDay ∧
        (nearestGrowth (dailyGrowth ts) pr.1.post_date).map Prod.snd = some pr.2) ∧
    matchPosts posts [] = [] := by
  have hlen : (dailyGrowth ts).length = numDays ts := dailyGrowth_length ts
  have hpos := numDays_pos ts h
  have hne : dailyGrowth ts ≠ [] := by
    intro hc
    rw [hc] at hlen
    simp at hlen
    omega
  obtain ⟨g, gs, hg⟩ : ∃ g gs, dailyGrowth ts = g :: gs := by
    cases hgg : dailyGrowth ts with
    | nil => exact absurd hgg hne
    | cons g gs => exact ⟨g, gs, rfl⟩
  obtain ⟨hmin, hmax⟩ := dailyGrowth_min_max ts h g gs hg
  have hmemiff : ∀ r, r ∈ relevantPosts posts (dailyGrowth ts) ↔
      r ∈ posts ∧ firstDay ts * secPerDay ≤ r.post_date ∧
        r.post_date ≤ lastDay ts * secPerDay := by
    intro r
    rw [hg]
    simp only [relevantPosts, hmin, hmax, List.mem_filter, Bool.and_eq_true,
      decide_eq_true_eq]
  refine ⟨hmemiff, ?_, ?_, rfl⟩
  · intro r hr
    exact List.mem_map_of_mem _ hr
  · intro pr hpr
    obtain ⟨r, hr, rfl⟩ := List.mem_map.mp hpr
    obtain ⟨hrp, hr1, hr2⟩ := (hmemiff r).mp hr
    refine ⟨hrp, hr1, hr2, ?_⟩
    obtain ⟨q, hq⟩ := nearestGrowth_isSome (dailyGrowth ts) r.post_date hne
    rw [hq]
    rfl

theorem claim_C5_witness :
    (⟨43200, "true", "mid"⟩ : PostRow) ∈
        relevantPosts [⟨43200, "true", "mid"⟩] (dailyGrowth [0, 86400]) ↔
      (⟨43200, "true", "mid"⟩ : PostRow) ∈ ([⟨43200, "true", "mid"⟩] : List PostRow) ∧
        firstDay [0, 86400] * secPerDay ≤ 43200 ∧
        (43200 : Int) ≤ lastDay [0, 86400] * secPerDay :=
  (claim_C5 [⟨43200, "true", "mid"⟩] [0, 86400] (by decide)).1 ⟨43200, "true", "mid"⟩

/-- The processed post list is sorted ascending by `post_date`. -/
theorem process_posts_sorted (t : RawPostTable) (l : List PostRow)
    (h : process_posts t = some l) : List.Pairwise postLE l := by
  cases hp : t.hasPostDate with
  | false => simp [process_posts, hp] at h
  | true =>
    simp only [process_posts, hp, if_true, Option.some.injEq] at h
    rw [← h]
    exact List.sorted_insertionSort postLE _

/-- C6: the Catalyst Window Search over a spike window returns exactly the
processed (published) content events with `post_date` in
`[window_start - 2 days, window_end]` inclusive, in ascending publish order;
on the day-5..day-8 window a day-3 post is found but a day-2 post is not. -/
theorem claim_C6 (t : RawPostTable) (l : List PostRow) (h : process_posts t = some l)
    (sw : SpikeWindow) :
    (∀ r, r ∈ catalystSearch l sw ↔
      r ∈ l ∧ (sw.window_start - 2) * secPerDay ≤ r.post_date ∧
        r.post_date ≤ sw.window_end * secPerDay) ∧
    List.Pairwise postLE (catalystSearch l sw) ∧
    catalystSearch [⟨2 * secPerDay, "true", "day2"⟩, ⟨3 * secPerDay, "true", "day3"⟩]
        ⟨5, 8, 0⟩ = [⟨3 * secPerDay, "true", "day3"⟩] := by
  refine ⟨?_, ?_, ?_⟩
  · intro r
    rw [catalystSearch, List.mem_filter]
    simp only [Bool.and_eq_true, decide_eq_true_eq]
  · exact (process_posts_sorted t l h).filter _
  · decide

theorem claim_C6_witness :
    List.Pairwise postLE
      (catalystSearch [(⟨0, "true", "a"⟩ : PostRow)] ⟨5, 8, 0⟩) :=
  (claim_C6 ⟨true, false, [⟨0, "true", "a"⟩]⟩ [⟨0, "true", "a"⟩] (by rfl) ⟨5, 8, 0⟩).2.1

end Dashboard
